import Mathlib

/-!
Shallow embedding of `crates/vfs/src/lib.rs` (the `Vfs` virtual file system
of rust-analyzer): the path-interning table, the versioned content store
(`data : Vec<Option<FileContents>>`), the change log, and the lazy-load path
through the external `loader` capability.

Modelling conventions:
- `FileId(u32)` is modelled as `Nat`; no claim involves values near `2^32`,
  so the `as u32` / `as usize` conversions are identities on the range used.
- A byte sequence `Vec<u8>` is modelled as `List Nat`.
- A `data` slot `Option<FileContents>` with `FileContents(Option<Vec<u8>>)`
  becomes `Option (Option Bytes)`: `none` is an unloaded (Unknown) slot,
  `some none` is `Some(FileContents(None))` (Deleted), `some (some b)` is
  `Some(FileContents(Some(b)))` (Present b).
- Functions that can hit a Rust `panic!`/`unwrap`/`expect`/index-out-of-bounds
  return the `fatal` outcome; the mutually recursive pair
  `get_or_load`/`set_id_contents` is given a fuel argument, and exhausting
  every fuel (the `diverge` outcome at all fuels) models non-termination.
- Operations that take `&mut self` return the successor state explicitly;
  the number of `load_sync` invocations performed is returned alongside, so
  that "invokes the loader exactly once / never" is expressible.
-/

/-- Byte sequences (`Vec<u8>`). -/
abbrev Bytes := List Nat

/-- Modelled from the spec: `VfsPath` (crates/vfs/src/vfs_path.rs is not part of
the source pack). Per §3 of the spec a path is an abstract comparable value that
is either an on-disk absolute path or an opaque in-memory identity for virtual
files; `as_path` exposes the on-disk representation when there is one. -/
inductive VfsPath where
  | disk (p : Nat)
  | mem (p : Nat)
deriving DecidableEq, Repr

/-- Modelled from the spec: `VfsPath::as_path` returns the concrete on-disk
path when the value has one, and nothing for a virtual/in-memory identity. -/
def VfsPath.as_path : VfsPath → Option Nat
  | .disk p => some p
  | .mem _ => none

/-- `ChangeKind` from `lib.rs`: kind of a recorded file change. -/
inductive ChangeKind where
  | Create
  | Modify
  | Delete
deriving DecidableEq, Repr

/-- `ChangedFile` from `lib.rs`: one entry of the change log. -/
structure ChangedFile where
  file_id : Nat
  change_kind : ChangeKind
deriving DecidableEq, Repr

/-- The payload of `FileContents(Option<Vec<u8>>)`: `none` means deleted. -/
abbrev FileContents := Option Bytes

/-- Outcome of running an operation that may panic or fail to terminate:
`ok` carries the Rust return value, `fatal` is a Rust panic
(index out of bounds, `unwrap`, `expect`), and `diverge` marks fuel
exhaustion, used to model non-termination. -/
inductive Res (α : Type) where
  | ok (a : α)
  | fatal
  | diverge
deriving DecidableEq, Repr

/-- Modelled from the spec: the `PathInterner` table
(crates/vfs/src/path_interner.rs is not part of the source pack) is, per §4.1
and §3, a deduplicating map from paths to densely assigned sequential handles;
it is modelled as the list of interned paths in allocation order, the handle
being the index. -/
abbrev PathInterner := List VfsPath

/-- Modelled from the spec: `PathInterner::get` — non-mutating lookup of the
handle of a path, no allocation. -/
def PathInterner.get (i : PathInterner) (p : VfsPath) : Option Nat :=
  match i with
  | [] => none
  | q :: qs => if q = p then some 0 else (PathInterner.get qs p).map (· + 1)

/-- Modelled from the spec: `PathInterner::intern` — returns the existing
handle if the path was seen before, otherwise allocates the next sequential
handle and records the path. -/
def PathInterner.intern (i : PathInterner) (p : VfsPath) : Nat × PathInterner :=
  match PathInterner.get i p with
  | some id => (id, i)
  | none => (i.length, i ++ [p])

/-- Modelled from the spec: `PathInterner::lookup` — path of a handle; fails
(`none`, a fatal precondition violation in the code) if the handle was never
allocated by this interner. -/
def PathInterner.lookup (i : PathInterner) (id : Nat) : Option VfsPath :=
  i.get? id

/-- The `Vfs` store from `lib.rs`: interner, content slots, change log, and
the borrowed loader capability (`loader::Handle::load_sync`, modelled per §6
of the spec as a function from on-disk paths to optional contents, since
crates/vfs/src/loader.rs is not part of the source pack). -/
structure Vfs where
  interner : PathInterner
  data : List (Option FileContents)
  changes : List ChangedFile
  loader : Nat → Option Bytes

/-- `Vfs::new`: empty interner, no slots, empty change log. -/
def Vfs.new (loader : Nat → Option Bytes) : Vfs :=
  { interner := [], data := [], changes := [], loader := loader }

/-- `Vfs::len`: number of allocated slots, deleted files included. -/
def Vfs.len (v : Vfs) : Nat :=
  v.data.length

/-- `Vfs::file_id`: id of the given path if it exists in the `Vfs`. -/
def Vfs.file_id (v : Vfs) (p : VfsPath) : Option Nat :=
  PathInterner.get v.interner p

/-- `Vfs::file_path`: path of the given id (`none` models the panic on an
id not present in the `Vfs`). -/
def Vfs.file_path (v : Vfs) (id : Nat) : Option VfsPath :=
  PathInterner.lookup v.interner id

/-- `Vfs::has_changes`. -/
def Vfs.has_changes (v : Vfs) : Bool :=
  !(v.changes.isEmpty)

/-- `Vfs::take_changes`: `mem::take(&mut self.changes)` — returns the log and
leaves it empty, in one swap. -/
def Vfs.take_changes (v : Vfs) : List ChangedFile × Vfs :=
  (v.changes, { v with changes := [] })

/-- `Vfs::alloc_file_id`: interns the path, then grows `data` with
`resize_with(max(len, idx + 1), || Some(FileContents::deleted()))`, so every
freshly created slot holds `Some(FileContents(None))` (a deleted file).
Records no change. -/
def Vfs.alloc_file_id (v : Vfs) (p : VfsPath) : Nat × Vfs :=
  let r := PathInterner.intern v.interner p
  let len := max v.data.length (r.1 + 1)
  (r.1, { v with
            interner := r.2,
            data := v.data ++ List.replicate (len - v.data.length) (some none) })

mutual

/-- `Vfs::get_or_load` (also `Vfs::get`, its direct wrapper): returns the
`FileContents` of the slot; when the slot is unloaded (`None`), looks up the
path, `expect`s an on-disk representation, calls `loader.load_sync`, stores
the result through `set_id_contents`, and re-reads the slot (`as_mut().unwrap()`).
The last component counts `load_sync` invocations. -/
def Vfs.get_or_load : Nat → Vfs → Nat → Res (FileContents × Vfs × Nat)
  | 0, _, _ => .diverge
  | fuel + 1, v, id =>
    match v.data.get? id with
    | none => .fatal
    | some (some fc) => .ok (fc, v, 0)
    | some none =>
      match PathInterner.lookup v.interner id with
      | none => .fatal
      | some vp =>
        match vp.as_path with
        | none => .fatal
        | some p =>
          match Vfs.set_id_contents fuel v id (v.loader p) with
          | .fatal => .fatal
          | .diverge => .diverge
          | .ok (_, v1, n) =>
            match v1.data.get? id with
            | some (some fc) => .ok (fc, v1, n + 1)
            | _ => .fatal

/-- `Vfs::set_id_contents`: reads the previous contents through
`self.get(file_id)` (which is `get_or_load`, and may therefore itself mutate
the store), derives the change kind from the
`(old FileContents payload, new contents)` pair — `(None, None)` and equal
`(Some, Some)` return `false` untouched; otherwise writes
`Some(FileContents(contents))` into the slot, pushes the `ChangedFile`, and
returns `true`. -/
def Vfs.set_id_contents : Nat → Vfs → Nat → FileContents → Res (Bool × Vfs × Nat)
  | 0, _, _, _ => .diverge
  | fuel + 1, v, id, contents =>
    match Vfs.get_or_load fuel v id with
    | .fatal => .fatal
    | .diverge => .diverge
    | .ok (old, v1, n) =>
      match old, contents with
      | none, none => .ok (false, v1, n)
      | none, some _ =>
        .ok (true, { v1 with
                       data := v1.data.set id (some contents),
                       changes := v1.changes ++ [⟨id, ChangeKind.Create⟩] }, n)
      | some _, none =>
        .ok (true, { v1 with
                       data := v1.data.set id (some contents),
                       changes := v1.changes ++ [⟨id, ChangeKind.Delete⟩] }, n)
      | some o, some c =>
        if o = c then .ok (false, v1, n)
        else
          .ok (true, { v1 with
                         data := v1.data.set id (some contents),
                         changes := v1.changes ++ [⟨id, ChangeKind.Modify⟩] }, n)

end

/-- `Vfs::file_contents`: `self.get(file_id).0.as_deref().unwrap()` — the
Present bytes of the slot; `unwrap` panics when the resolved contents are
deleted. -/
def Vfs.file_contents (fuel : Nat) (v : Vfs) (id : Nat) : Res (Bytes × Vfs × Nat) :=
  match Vfs.get_or_load fuel v id with
  | .ok (some b, v1, n) => .ok (b, v1, n)
  | .ok (none, _, _) => .fatal
  | .fatal => .fatal
  | .diverge => .diverge

/-- `Vfs::set_file_contents`: interns/allocates the path, then delegates to
`set_id_contents`. -/
def Vfs.set_file_contents (fuel : Nat) (v : Vfs) (p : VfsPath) (c : FileContents) :
    Res (Bool × Vfs × Nat) :=
  let r := Vfs.alloc_file_id v p
  Vfs.set_id_contents fuel r.2 r.1 c

/-- The change-kind table exactly as §3 of the spec states it, for resolved
previous states: previous Deleted and new Present gives Create, previous
Present and new Present with different bytes gives Modify, previous Present
and new Deleted gives Delete, and the remaining (no-op) transitions give no
event. Used to compare `Vfs.set_id_contents` against the spec. -/
def specChangeKind : FileContents → FileContents → Option ChangeKind
  | none, some _ => some ChangeKind.Create
  | some o, some n => if o = n then none else some ChangeKind.Modify
  | some _, none => some ChangeKind.Delete
  | none, none => none

/-- Every allocated content slot is resolved: no slot is the unloaded
(`None`) state. -/
def Vfs.allResolved (v : Vfs) : Prop :=
  ∀ s ∈ v.data, s ≠ none

/-- Well-formedness of a store: one content slot per interned path, and
every slot resolved. It holds of `Vfs.new` and is preserved by every public
operation. -/
def Vfs.WF (v : Vfs) : Prop :=
  v.interner.length = v.data.length ∧ Vfs.allResolved v

instance (v : Vfs) : Decidable (Vfs.allResolved v) :=
  List.decidableBAll _ v.data

instance (v : Vfs) : Decidable (Vfs.WF v) :=
  instDecidableAnd

/-- One public mutating or reading operation of the store, for stating
properties of arbitrary operation sequences. -/
inductive Op where
  | setFile (p : VfsPath) (c : FileContents)
  | setId (id : Nat) (c : FileContents)
  | take
  | read (id : Nat)

/-- Run one public operation, keeping the successor state. -/
def Vfs.step (fuel : Nat) (v : Vfs) : Op → Res Vfs
  | .setFile p c =>
    match Vfs.set_file_contents fuel v p c with
    | .ok (_, v1, _) => .ok v1
    | .fatal => .fatal
    | .diverge => .diverge
  | .setId id c =>
    match Vfs.set_id_contents fuel v id c with
    | .ok (_, v1, _) => .ok v1
    | .fatal => .fatal
    | .diverge => .diverge
  | .take => .ok (Vfs.take_changes v).2
  | .read id =>
    match Vfs.file_contents fuel v id with
    | .ok (_, v1, _) => .ok v1
    | .fatal => .fatal
    | .diverge => .diverge

/-- Run a sequence of public operations, stopping at the first panic or
divergence. -/
def Vfs.runOps (fuel : Nat) (v : Vfs) : List Op → Res Vfs
  | [] => .ok v
  | op :: ops =>
    match Vfs.step fuel v op with
    | .ok v1 => Vfs.runOps fuel v1 ops
    | .fatal => .fatal
    | .diverge => .diverge

/-- Run a sequence of `set_file_contents` calls. -/
def Vfs.runSets (fuel : Nat) (v : Vfs) : List (VfsPath × FileContents) → Res Vfs
  | [] => .ok v
  | (p, c) :: ops =>
    match Vfs.set_file_contents fuel v p c with
    | .ok (_, v1, _) => Vfs.runSets fuel v1 ops
    | .fatal => .fatal
    | .diverge => .diverge

/-- The contents argument of the last call in the sequence that targets
path `p`, if any. -/
def lastSet (p : VfsPath) : List (VfsPath × FileContents) → Option FileContents
  | [] => none
  | (q, c) :: ops =>
    match lastSet p ops with
    | some r => some r
    | none => if q = p then some c else none

/-- A handle returned by the interner lookup is in range. -/
theorem PathInterner.get_lt {i : PathInterner} {p : VfsPath} {k : Nat}
    (h : PathInterner.get i p = some k) : k < i.length := by
  induction i generalizing k with
  | nil => simp [PathInterner.get] at h
  | cons q qs ih =>
    by_cases hq : q = p
    · simp [PathInterner.get, hq] at h
      simp
      omega
    · simp [PathInterner.get, hq] at h
      obtain ⟨k1, hk1, rfl⟩ := h
      have := ih hk1
      simp
      omega

/-- The interner stores the looked-up path at the returned handle. -/
theorem PathInterner.get_mem {i : PathInterner} {p : VfsPath} {k : Nat}
    (h : PathInterner.get i p = some k) : i.get? k = some p := by
  induction i generalizing k with
  | nil => simp [PathInterner.get] at h
  | cons q qs ih =>
    by_cases hq : q = p
    · simp [PathInterner.get, hq] at h
      subst h
      simp [hq]
    · simp [PathInterner.get, hq] at h
      obtain ⟨k1, hk1, rfl⟩ := h
      simpa using ih hk1

/-- Extending the interner on the right preserves existing handles. -/
theorem PathInterner.get_append {i : PathInterner} {p : VfsPath} {k : Nat}
    (l : PathInterner) (h : PathInterner.get i p = some k) :
    PathInterner.get (i ++ l) p = some k := by
  induction i generalizing k with
  | nil => simp [PathInterner.get] at h
  | cons q qs ih =>
    by_cases hq : q = p
    · simp [PathInterner.get, hq] at h ⊢
      omega
    · simp [PathInterner.get, hq] at h ⊢
      obtain ⟨k1, hk1, rfl⟩ := h
      exact ⟨k1, ih hk1, rfl⟩

/-- Interning a fresh path places it at the next sequential handle. -/
theorem PathInterner.get_append_self {i : PathInterner} {p : VfsPath}
    (h : PathInterner.get i p = none) :
    PathInterner.get (i ++ [p]) p = some i.length := by
  induction i with
  | nil => simp [PathInterner.get]
  | cons q qs ih =>
    by_cases hq : q = p
    · simp [PathInterner.get, hq] at h
    · simp [PathInterner.get, hq] at h ⊢
      exact ih h

/-- Two distinct interned paths have distinct handles. -/
theorem PathInterner.get_inj {i : PathInterner} {p q : VfsPath} {k : Nat}
    (hp : PathInterner.get i p = some k) (hq : PathInterner.get i q = some k) :
    p = q := by
  have h1 := PathInterner.get_mem hp
  have h2 := PathInterner.get_mem hq
  rw [h1] at h2
  exact Option.some.inj h2

/-- Setting the freshly appended last element rewrites just that element. -/
theorem List.set_concat_length {α : Type} (l : List α) (a b : α) :
    (l ++ [a]).set l.length b = l ++ [b] := by
  induction l with
  | nil => rfl
  | cons x xs ih => simp [List.set, ih]

/-- Reading a resolved slot returns it with the state untouched and no
loader invocation. -/
theorem Vfs.get_or_load_resolved {v : Vfs} {id : Nat} {fc : FileContents}
    (fuel : Nat) (h : v.data.get? id = some (some fc)) (hf : 1 ≤ fuel) :
    Vfs.get_or_load fuel v id = .ok (fc, v, 0) := by
  cases fuel with
  | zero => omega
  | succ f => simp only [Vfs.get_or_load, h]

/-- On an unloaded slot whose path is on-disk, the lazy-load branch never
terminates: `set_id_contents` re-reads the slot through `get`/`get_or_load`
before anything is written, so the two functions call each other forever. -/
theorem Vfs.lazy_diverge (fuel : Nat) :
    ∀ (v : Vfs) (id p : Nat), v.data.get? id = some none →
      PathInterner.lookup v.interner id = some (VfsPath.disk p) →
      Vfs.get_or_load fuel v id = .diverge ∧
        ∀ c, Vfs.set_id_contents fuel v id c = .diverge := by
  induction fuel with
  | zero => exact fun v id p h1 h2 => ⟨rfl, fun _ => rfl⟩
  | succ f ih =>
    intro v id p h1 h2
    obtain ⟨hgo, hsi⟩ := ih v id p h1 h2
    constructor
    · simp only [Vfs.get_or_load, h1, h2, VfsPath.as_path, hsi]
    · intro c
      simp only [Vfs.set_id_contents, hgo]

/-- Inversion: a successful `get_or_load` found the slot already resolved,
left the store untouched, and called the loader zero times. -/
theorem Vfs.get_or_load_ok_inv {fuel : Nat} {v v1 : Vfs} {id n : Nat}
    {fc : FileContents}
    (h : Vfs.get_or_load fuel v id = .ok (fc, v1, n)) :
    v.data.get? id = some (some fc) ∧ v1 = v ∧ n = 0 := by
  cases fuel with
  | zero => simp only [Vfs.get_or_load] at h; cases h
  | succ f =>
    cases hs : v.data.get? id with
    | none => simp only [Vfs.get_or_load, hs] at h; cases h
    | some e =>
      cases e with
      | some fc2 =>
        simp only [Vfs.get_or_load, hs] at h
        simp at h
        obtain ⟨h1, h2, h3⟩ := h
        exact ⟨by rw [h1], h2.symm, h3.symm⟩
      | none =>
        cases hl : PathInterner.lookup v.interner id with
        | none => simp only [Vfs.get_or_load, hs, hl] at h; cases h
        | some vp =>
          cases vp with
          | mem q =>
            simp only [Vfs.get_or_load, hs, hl, VfsPath.as_path] at h
            cases h
          | disk p =>
            have hd := (Vfs.lazy_diverge (f + 1) v id p hs hl).1
            rw [hd] at h
            cases h

/-- On a resolved slot, `set_id_contents` implements exactly the transition
table `specChangeKind`: no event and `false` on a no-op transition, one
matching appended event and `true` otherwise, with no loader call. -/
theorem Vfs.set_id_contents_resolved {v : Vfs} {id : Nat} {old : FileContents}
    (fuel : Nat) (c : FileContents)
    (h : v.data.get? id = some (some old)) (hf : 2 ≤ fuel) :
    Vfs.set_id_contents fuel v id c =
      match specChangeKind old c with
      | none => Res.ok (false, v, 0)
      | some k => Res.ok (true, { v with
                                    data := v.data.set id (some c),
                                    changes := v.changes ++ [⟨id, k⟩] }, 0) := by
  obtain ⟨f, rfl⟩ : ∃ f, fuel = f + 2 := ⟨fuel - 2, by omega⟩
  have hg : Vfs.get_or_load (f + 1) v id = Res.ok (old, v, 0) :=
    Vfs.get_or_load_resolved (f + 1) h (by omega)
  cases old with
  | none =>
    cases c with
    | none => simp only [Vfs.set_id_contents, hg, specChangeKind]
    | some b => simp only [Vfs.set_id_contents, hg, specChangeKind]
  | some o =>
    cases c with
    | none => simp only [Vfs.set_id_contents, hg, specChangeKind]
    | some b =>
      by_cases he : o = b
      · subst he
        simp only [Vfs.set_id_contents, hg, specChangeKind]
        simp
      · simp only [Vfs.set_id_contents, hg, specChangeKind, if_neg he]

/-- Inversion: a terminating, non-panicking `set_id_contents` call found the
slot already resolved, performed no load, and followed the transition
table. -/
theorem Vfs.set_id_ok_inv {fuel : Nat} {v v1 : Vfs} {id n : Nat}
    {c : FileContents} {b : Bool}
    (h : Vfs.set_id_contents fuel v id c = .ok (b, v1, n)) :
    ∃ old, v.data.get? id = some (some old) ∧ n = 0 ∧
      ((specChangeKind old c = none ∧ b = false ∧ v1 = v) ∨
       (∃ k, specChangeKind old c = some k ∧ b = true ∧
         v1 = { v with
                  data := v.data.set id (some c),
                  changes := v.changes ++ [⟨id, k⟩] })) := by
  cases fuel with
  | zero => simp only [Vfs.set_id_contents] at h; cases h
  | succ f =>
    cases hg : Vfs.get_or_load f v id with
    | fatal => simp only [Vfs.set_id_contents, hg] at h; cases h
    | diverge => simp only [Vfs.set_id_contents, hg] at h; cases h
    | ok r =>
      obtain ⟨old, v2, m⟩ := r
      obtain ⟨hslot, rfl, rfl⟩ := Vfs.get_or_load_ok_inv hg
      have hf1 : 1 ≤ f := by
        cases f with
        | zero => simp only [Vfs.get_or_load] at hg; cases hg
        | succ g => omega
      have heq := Vfs.set_id_contents_resolved (f + 1) c hslot (by omega)
      rw [heq] at h
      refine ⟨old, hslot, ?_⟩
      cases hk : specChangeKind old c with
      | none =>
        rw [hk] at h
        simp at h
        obtain ⟨hb, hv, hn⟩ := h
        subst hb
        subst hv
        subst hn
        exact ⟨rfl, Or.inl ⟨rfl, rfl, rfl⟩⟩
      | some k =>
        rw [hk] at h
        simp at h
        obtain ⟨hb, hv, hn⟩ := h
        subst hb
        subst hv
        subst hn
        exact ⟨rfl, Or.inr ⟨k, rfl, rfl, rfl⟩⟩

/-- A `false` return from `set_id_contents` leaves the store untouched and
performs no load. -/
theorem Vfs.set_id_false_inv {fuel : Nat} {v v1 : Vfs} {id n : Nat}
    {c : FileContents}
    (h : Vfs.set_id_contents fuel v id c = .ok (false, v1, n)) :
    v1 = v ∧ n = 0 := by
  obtain ⟨old, hslot, hn, hcase⟩ := Vfs.set_id_ok_inv h
  cases hcase with
  | inl hc => exact ⟨hc.2.2, hn⟩
  | inr hc =>
    obtain ⟨k, _, hb, _⟩ := hc
    cases hb

/-- Re-interning an existing path allocates nothing: the store comes back
unchanged together with the existing handle. -/
theorem Vfs.alloc_of_old {v : Vfs} {p : VfsPath} {k : Nat}
    (hlen : v.interner.length = v.data.length)
    (h : PathInterner.get v.interner p = some k) :
    Vfs.alloc_file_id v p = (k, v) := by
  have hk : k < v.data.length := hlen ▸ PathInterner.get_lt h
  simp only [Vfs.alloc_file_id, PathInterner.intern, h]
  have hmax : max v.data.length (k + 1) = v.data.length := by omega
  rw [hmax]
  simp

/-- Interning a fresh path allocates the next sequential handle and one new
slot holding a deleted file. -/
theorem Vfs.alloc_of_new {v : Vfs} {p : VfsPath}
    (hlen : v.interner.length = v.data.length)
    (h : PathInterner.get v.interner p = none) :
    Vfs.alloc_file_id v p =
      (v.data.length, { v with
                          interner := v.interner ++ [p],
                          data := v.data ++ [some none] }) := by
  simp only [Vfs.alloc_file_id, PathInterner.intern, h, hlen]
  have hmax : max v.data.length (v.data.length + 1) = v.data.length + 1 := by
    omega
  rw [hmax]
  simp

/-- The empty store is well-formed. -/
theorem Vfs.WF_new (l : Nat → Option Bytes) : (Vfs.new l).WF := by
  constructor
  · rfl
  · intro s hs
    cases hs

/-- `alloc_file_id` preserves well-formedness. -/
theorem Vfs.WF_alloc {v : Vfs} (p : VfsPath) (hWF : v.WF) :
    (Vfs.alloc_file_id v p).2.WF := by
  cases hp : PathInterner.get v.interner p with
  | some k =>
    rw [Vfs.alloc_of_old hWF.1 hp]
    exact hWF
  | none =>
    rw [Vfs.alloc_of_new hWF.1 hp]
    constructor
    · simp [hWF.1]
    · intro s hs
      rcases List.mem_append.mp hs with h1 | h2
      · exact hWF.2 s h1
      · simp at h2
        subst h2
        simp

/-- A successful `set_id_contents` preserves well-formedness, the interner,
and the number of slots. -/
theorem Vfs.WF_set_id_ok {fuel : Nat} {v v1 : Vfs} {id n : Nat}
    {c : FileContents} {b : Bool} (hWF : v.WF)
    (h : Vfs.set_id_contents fuel v id c = .ok (b, v1, n)) :
    v1.WF ∧ v1.interner = v.interner ∧ v1.data.length = v.data.length := by
  obtain ⟨old, hslot, hn, hcase⟩ := Vfs.set_id_ok_inv h
  cases hcase with
  | inl hc =>
    rw [hc.2.2]
    exact ⟨hWF, rfl, rfl⟩
  | inr hc =>
    obtain ⟨k, hk, hb, hv⟩ := hc
    subst hv
    refine ⟨⟨?_, ?_⟩, rfl, by simp⟩
    · simp [hWF.1]
    · intro s hs
      rcases List.mem_or_eq_of_mem_set hs with h1 | h2
      · exact hWF.2 s h1
      · subst h2
        simp

/-- A no-op transition keeps the old contents: the table yields no kind only
when old and new contents agree. -/
theorem specChangeKind_none {old c : FileContents}
    (h : specChangeKind old c = none) : old = c := by
  cases old with
  | none =>
    cases c with
    | none => rfl
    | some b => simp [specChangeKind] at h
  | some o =>
    cases c with
    | none => simp [specChangeKind] at h
    | some b =>
      simp [specChangeKind] at h
      simp [h]

/-- Master lemma: from a well-formed store, `set_file_contents` returns
without panic or loader call, keeps the store well-formed, keeps every
existing handle, leaves the target path's slot holding exactly the new
contents, and does not touch the slot of any other interned path. -/
theorem Vfs.set_file_ok {v : Vfs} (fuel : Nat) (q : VfsPath) (c : FileContents)
    (hWF : v.WF) (hf : 2 ≤ fuel) :
    ∃ r v1, Vfs.set_file_contents fuel v q c = Res.ok (r, v1, 0) ∧
      v1.WF ∧
      (∀ p id, Vfs.file_id v p = some id → Vfs.file_id v1 p = some id) ∧
      (∃ iq, Vfs.file_id v1 q = some iq ∧ v1.data.get? iq = some (some c)) ∧
      (∀ p id, p ≠ q → Vfs.file_id v p = some id →
        v1.data.get? id = v.data.get? id) := by
  cases hq : PathInterner.get v.interner q with
  | some k =>
    have halloc := Vfs.alloc_of_old hWF.1 hq
    have hk : k < v.data.length := hWF.1 ▸ PathInterner.get_lt hq
    obtain ⟨e, he⟩ : ∃ e, v.data.get? k = some e :=
      ⟨v.data.get ⟨k, hk⟩, List.get?_eq_get hk⟩
    have hres : e ≠ none := hWF.2 e (List.get?_mem he)
    obtain ⟨old, rfl⟩ : ∃ old, e = some old := by
      cases e with
      | none => exact absurd rfl hres
      | some old => exact ⟨old, rfl⟩
    have heq := Vfs.set_id_contents_resolved fuel c he hf
    have hstep : Vfs.set_file_contents fuel v q c =
        Vfs.set_id_contents fuel v k c := by
      simp only [Vfs.set_file_contents, halloc]
    cases hkind : specChangeKind old c with
    | none =>
      have hoc : old = c := specChangeKind_none hkind
      refine ⟨false, v, ?_, hWF, fun p id h => h, ⟨k, hq, ?_⟩,
        fun p id hne h => rfl⟩
      · rw [hstep, heq, hkind]
      · rw [he, hoc]
    | some kk =>
      refine ⟨true, { v with
                        data := v.data.set k (some c),
                        changes := v.changes ++ [⟨k, kk⟩] },
        ?_, ⟨?_, ?_⟩, fun p id h => h, ⟨k, hq, ?_⟩, ?_⟩
      · rw [hstep, heq, hkind]
      · simp [hWF.1]
      · intro s hs
        rcases List.mem_or_eq_of_mem_set hs with h1 | h2
        · exact hWF.2 s h1
        · subst h2
          simp
      · rw [List.get?_set_eq, he]
        rfl
      · intro p id hne h
        have hid : k ≠ id := fun hid =>
          hne (PathInterner.get_inj h (hid ▸ hq))
        exact List.get?_set_ne _ _ hid
  | none =>
    have halloc := Vfs.alloc_of_new hWF.1 hq
    have hid0 : PathInterner.get (v.interner ++ [q]) q = some v.interner.length :=
      PathInterner.get_append_self hq
    have hslot0 :
        ({ v with
             interner := v.interner ++ [q],
             data := v.data ++ [some none] } : Vfs).data.get? v.data.length =
          some (some none) :=
      List.get?_concat_length _ _
    have hstep : Vfs.set_file_contents fuel v q c =
        Vfs.set_id_contents fuel
          { v with interner := v.interner ++ [q], data := v.data ++ [some none] }
          v.data.length c := by
      simp only [Vfs.set_file_contents, halloc]
    have heq := Vfs.set_id_contents_resolved fuel c hslot0 hf
    cases c with
    | none =>
      refine ⟨false, { v with
                         interner := v.interner ++ [q],
                         data := v.data ++ [some none] },
        ?_, ⟨?_, ?_⟩, ?_, ⟨v.data.length, ?_, ?_⟩, ?_⟩
      · rw [hstep, heq]
        rfl
      · simp [hWF.1]
      · intro s hs
        rcases List.mem_append.mp hs with h1 | h2
        · exact hWF.2 s h1
        · simp at h2
          subst h2
          simp
      · intro p id h
        exact PathInterner.get_append [q] h
      · show PathInterner.get (v.interner ++ [q]) q = some v.data.length
        rw [hid0, hWF.1]
      · exact hslot0
      · intro p id hne h
        have hlt : id < v.data.length := hWF.1 ▸ PathInterner.get_lt h
        exact List.get?_append hlt
    | some b =>
      refine ⟨true, { v with
                        interner := v.interner ++ [q],
                        data := v.data ++ [some (some b)],
                        changes := v.changes ++ [⟨v.data.length, ChangeKind.Create⟩] },
        ?_, ⟨?_, ?_⟩, ?_, ⟨v.data.length, ?_, ?_⟩, ?_⟩
      · rw [hstep, heq]
        simp [specChangeKind, List.set_concat_length]
      · simp [hWF.1]
      · intro s hs
        rcases List.mem_append.mp hs with h1 | h2
        · exact hWF.2 s h1
        · simp at h2
          subst h2
          simp
      · intro p id h
        exact PathInterner.get_append [q] h
      · show PathInterner.get (v.interner ++ [q]) q = some v.data.length
        rw [hid0, hWF.1]
      · exact List.get?_concat_length _ _
      · intro p id hne h
        have hlt : id < v.data.length := hWF.1 ▸ PathInterner.get_lt h
        exact List.get?_append hlt

/-- A successful `set_file_contents` call preserves well-formedness. -/
theorem Vfs.WF_set_file {fuel : Nat} {v v1 : Vfs} {p : VfsPath}
    {c : FileContents} {b : Bool} {n : Nat} (hWF : v.WF)
    (h : Vfs.set_file_contents fuel v p c = .ok (b, v1, n)) : v1.WF := by
  simp only [Vfs.set_file_contents] at h
  exact (Vfs.WF_set_id_ok (Vfs.WF_alloc p hWF) h).1

/-- A successful `file_contents` read found the bytes already present,
leaves the store unchanged, and calls the loader zero times. -/
theorem Vfs.file_contents_ok_inv {fuel : Nat} {v v1 : Vfs} {id n : Nat}
    {b : Bytes}
    (h : Vfs.file_contents fuel v id = .ok (b, v1, n)) :
    v.data.get? id = some (some (some b)) ∧ v1 = v ∧ n = 0 := by
  unfold Vfs.file_contents at h
  cases hg : Vfs.get_or_load fuel v id with
  | fatal => rw [hg] at h; cases h
  | diverge => rw [hg] at h; cases h
  | ok r =>
    obtain ⟨fc, v2, m⟩ := r
    obtain ⟨hslot, rfl, rfl⟩ := Vfs.get_or_load_ok_inv hg
    rw [hg] at h
    cases fc with
    | none => simp at h
    | some bb =>
      simp at h
      obtain ⟨hb, hv, hn⟩ := h
      subst hb
      subst hv
      subst hn
      exact ⟨hslot, rfl, rfl⟩

/-- Every public operation, when it completes, preserves well-formedness. -/
theorem Vfs.WF_step {fuel : Nat} {v v1 : Vfs} {op : Op} (hWF : v.WF)
    (h : Vfs.step fuel v op = .ok v1) : v1.WF := by
  cases op with
  | setFile p c =>
    simp only [Vfs.step] at h
    cases hs : Vfs.set_file_contents fuel v p c with
    | ok r =>
      obtain ⟨b, v2, n⟩ := r
      rw [hs] at h
      simp at h
      subst h
      exact Vfs.WF_set_file hWF hs
    | fatal => rw [hs] at h; cases h
    | diverge => rw [hs] at h; cases h
  | setId id c =>
    simp only [Vfs.step] at h
    cases hs : Vfs.set_id_contents fuel v id c with
    | ok r =>
      obtain ⟨b, v2, n⟩ := r
      rw [hs] at h
      simp at h
      subst h
      exact (Vfs.WF_set_id_ok hWF hs).1
    | fatal => rw [hs] at h; cases h
    | diverge => rw [hs] at h; cases h
  | take =>
    simp only [Vfs.step, Vfs.take_changes] at h
    simp at h
    subst h
    exact ⟨hWF.1, hWF.2⟩
  | read id =>
    simp only [Vfs.step] at h
    cases hs : Vfs.file_contents fuel v id with
    | ok r =>
      obtain ⟨b, v2, n⟩ := r
      rw [hs] at h
      simp at h
      subst h
      obtain ⟨_, rfl, _⟩ := Vfs.file_contents_ok_inv hs
      exact hWF
    | fatal => rw [hs] at h; cases h
    | diverge => rw [hs] at h; cases h

/-- Well-formedness is preserved along every completed run of public
operations. -/
theorem Vfs.WF_runOps {fuel : Nat} :
    ∀ (ops : List Op) (v v1 : Vfs), v.WF →
      Vfs.runOps fuel v ops = .ok v1 → v1.WF := by
  intro ops
  induction ops with
  | nil =>
    intro v v1 hWF h
    simp only [Vfs.runOps] at h
    simp at h
    subst h
    exact hWF
  | cons op ops ih =>
    intro v v1 hWF h
    simp only [Vfs.runOps] at h
    cases hs : Vfs.step fuel v op with
    | ok v2 =>
      rw [hs] at h
      exact ih v2 v1 (Vfs.WF_step hWF hs) h
    | fatal => rw [hs] at h; cases h
    | diverge => rw [hs] at h; cases h

/-- Paths not targeted by a run of `set_file_contents` calls keep both their
handle and their slot contents. -/
theorem Vfs.runSets_frame {fuel : Nat} (hf : 2 ≤ fuel) :
    ∀ (ops : List (VfsPath × FileContents)) (v v1 : Vfs) (p : VfsPath)
      (id : Nat),
      v.WF → lastSet p ops = none → Vfs.runSets fuel v ops = .ok v1 →
      Vfs.file_id v p = some id →
      Vfs.file_id v1 p = some id ∧ v1.data.get? id = v.data.get? id := by
  intro ops
  induction ops with
  | nil =>
    intro v v1 p id hWF hl h hid
    simp only [Vfs.runSets] at h
    simp at h
    subst h
    exact ⟨hid, rfl⟩
  | cons qc ops ih =>
    obtain ⟨q, cq⟩ := qc
    intro v v1 p id hWF hl h hid
    have hl2 : lastSet p ops = none ∧ q ≠ p := by
      simp only [lastSet] at hl
      cases hll : lastSet p ops with
      | some r => rw [hll] at hl; cases hl
      | none =>
        rw [hll] at hl
        refine ⟨rfl, ?_⟩
        intro hqp
        rw [if_pos hqp] at hl
        cases hl
    simp only [Vfs.runSets] at h
    obtain ⟨r0, v2, hcall, hWF2, hpres, _, hframe⟩ :=
      Vfs.set_file_ok fuel q cq hWF hf
    rw [hcall] at h
    have hid2 : Vfs.file_id v2 p = some id := hpres p id hid
    have hfr : v2.data.get? id = v.data.get? id :=
      hframe p id (Ne.symm hl2.2) hid
    obtain ⟨ha, hb⟩ := ih v2 v1 p id hWF2 hl2.1 h hid2
    exact ⟨ha, hb.trans hfr⟩

/-- After a completed run of `set_file_contents` calls from a well-formed
store, the slot of a path holds exactly the contents argument of the last
call that targeted it. -/
theorem Vfs.runSets_lastSet {fuel : Nat} (hf : 2 ≤ fuel) :
    ∀ (ops : List (VfsPath × FileContents)) (v v1 : Vfs) (p : VfsPath)
      (c : FileContents),
      v.WF → lastSet p ops = some c → Vfs.runSets fuel v ops = .ok v1 →
      ∃ id, Vfs.file_id v1 p = some id ∧ v1.data.get? id = some (some c) := by
  intro ops
  induction ops with
  | nil =>
    intro v v1 p c hWF hl h
    simp [lastSet] at hl
  | cons qc ops ih =>
    obtain ⟨q, cq⟩ := qc
    intro v v1 p c hWF hl h
    simp only [Vfs.runSets] at h
    obtain ⟨r0, v2, hcall, hWF2, hpres, htgt, hframe⟩ :=
      Vfs.set_file_ok fuel q cq hWF hf
    rw [hcall] at h
    simp only [lastSet] at hl
    cases hll : lastSet p ops with
    | some r =>
      rw [hll] at hl
      have hrc : r = c := Option.some.inj hl
      subst hrc
      exact ih v2 v1 p r hWF2 hll h
    | none =>
      rw [hll] at hl
      by_cases hqp : q = p
      · rw [if_pos hqp] at hl
        have hc : cq = c := Option.some.inj hl
        subst hc
        subst hqp
        obtain ⟨iq, hiq, hslotq⟩ := htgt
        obtain ⟨ha, hb⟩ := Vfs.runSets_frame hf ops v2 v1 q iq hWF2 hll h hiq
        exact ⟨iq, ha, hb.trans hslotq⟩
      · rw [if_neg hqp] at hl
        cases hl

/-- C1: for every allocated handle (whose slot, as allocation guarantees, is
resolved) and every contents argument, `set_id_contents` derives the change
kind purely from the (old state, new state) pair — Deleted-to-Present gives
Create, Present-to-Present with different bytes gives Modify,
Present-to-Deleted gives Delete — and exactly in these observable cases it
appends one matching change event and returns `true`, while the no-op
transitions append no event and return `false` with the store untouched. -/
theorem c1_set_id_contents_transition {v : Vfs} {id : Nat}
    {old : FileContents} (fuel : Nat) (c : FileContents)
    (hslot : v.data.get? id = some (some old)) (hf : 2 ≤ fuel) :
    Vfs.set_id_contents fuel v id c =
      match specChangeKind old c with
      | none => Res.ok (false, v, 0)
      | some k => Res.ok (true, { v with
                                    data := v.data.set id (some c),
                                    changes := v.changes ++ [⟨id, k⟩] }, 0) :=
  Vfs.set_id_contents_resolved fuel c hslot hf

/-- Witness for C1: a Present-to-Present transition with different bytes on
a concrete store appends exactly one Modify event and returns `true`. -/
theorem c1_witness :
    Vfs.set_id_contents 2
      { interner := [VfsPath.disk 0], data := [some (some [1])], changes := [],
        loader := fun _ => none } 0 (some [2]) =
      Res.ok (true,
        { interner := [VfsPath.disk 0], data := [some (some [2])],
          changes := [⟨0, ChangeKind.Modify⟩], loader := fun _ => none }, 0) := by
  have h := c1_set_id_contents_transition 2 (some [2])
    (show ({ interner := [VfsPath.disk 0], data := [some (some [1])],
             changes := [], loader := fun _ => none } : Vfs).data.get? 0 =
        some (some (some [1])) from rfl)
    (by omega)
  simpa [specChangeKind] using h

/-- C2 (code bug): on a store whose slot 0 is Unknown (never loaded) with an
on-disk path and a loader that would return bytes `[42]`, a contents read
does not perform one lazy load followed by a Create event — it never
terminates at any fuel, because `set_id_contents` first re-reads the slot
through `get`/`get_or_load` before writing, re-entering the lazy-load
branch forever. -/
theorem c2_lazy_load_diverges (fuel : Nat) :
    Vfs.file_contents fuel
      { interner := [VfsPath.disk 0], data := [none], changes := [],
        loader := fun _ => some [42] } 0 = Res.diverge := by
  unfold Vfs.file_contents
  rw [(Vfs.lazy_diverge fuel
    { interner := [VfsPath.disk 0], data := [none], changes := [],
      loader := fun _ => some [42] } 0 0 rfl rfl).1]

/-- Counterexample to C3 as stated: interning a fresh path does not leave
the new handle in the Unknown content state (`none` slot); the slot is
created already resolved as Deleted (`some none`). -/
theorem c3_counterexample :
    (Vfs.alloc_file_id (Vfs.new (fun _ => none)) (VfsPath.disk 0)).2.data.get? 0 =
      some (some none) ∧
    (Vfs.alloc_file_id (Vfs.new (fun _ => none)) (VfsPath.disk 0)).2.data.get? 0 ≠
      some none :=
  ⟨rfl, by decide⟩

/-- C3 (amended): the handle created when a path is first interned begins in
the Deleted content state (not Unknown), and under every sequence of public
store operations from a fresh store no slot is ever Unknown — states only
move between Deleted and Present. -/
theorem c3_amended (l : Nat → Option Bytes) (fuel : Nat) (ops : List Op)
    (v1 : Vfs) (p : VfsPath)
    (hrun : Vfs.runOps fuel (Vfs.new l) ops = .ok v1)
    (hnew : Vfs.file_id v1 p = none) :
    (Vfs.alloc_file_id v1 p).2.data.get? (Vfs.alloc_file_id v1 p).1 =
      some (some none) ∧
    ∀ s ∈ v1.data, s ≠ none := by
  have hWF := Vfs.WF_runOps ops (Vfs.new l) v1 (Vfs.WF_new l) hrun
  constructor
  · rw [Vfs.alloc_of_new hWF.1 hnew]
    exact List.get?_concat_length _ _
  · exact hWF.2

/-- Witness for C3 (amended): after one concrete create operation, interning
a fresh path yields a handle whose slot is the Deleted state. -/
theorem c3_witness :
    (Vfs.alloc_file_id
      { interner := [VfsPath.disk 0], data := [some (some [1])],
        changes := [⟨0, ChangeKind.Create⟩], loader := fun _ => none }
      (VfsPath.disk 5)).2.data.get?
      (Vfs.alloc_file_id
        { interner := [VfsPath.disk 0], data := [some (some [1])],
          changes := [⟨0, ChangeKind.Create⟩], loader := fun _ => none }
        (VfsPath.disk 5)).1 = some (some none) :=
  (c3_amended (fun _ => none) 2 [Op.setFile (VfsPath.disk 0) (some [1])]
    { interner := [VfsPath.disk 0], data := [some (some [1])],
      changes := [⟨0, ChangeKind.Create⟩], loader := fun _ => none }
    (VfsPath.disk 5) rfl rfl).1

/-- C4: `take_changes` returns exactly the recorded change events in append
order, empties the log in the same single swap leaving every other field
untouched, and an immediately following call returns the empty sequence. -/
theorem c4_take_changes_drains (v : Vfs) :
    (Vfs.take_changes v).1 = v.changes ∧
    (Vfs.take_changes v).2 =
      { interner := v.interner, data := v.data, changes := [],
        loader := v.loader } ∧
    (Vfs.take_changes (Vfs.take_changes v).2).1 = [] :=
  ⟨rfl, rfl, rfl⟩

/-- C9: whenever `set_id_contents` returns `false`, the content array, the
change log and the interner are left exactly as they were, and the loader
was not invoked. -/
theorem c9_noop_frame {fuel : Nat} {v v1 : Vfs} {id n : Nat}
    {c : FileContents}
    (h : Vfs.set_id_contents fuel v id c = .ok (false, v1, n)) :
    v1.data = v.data ∧ v1.changes = v.changes ∧ v1.interner = v.interner ∧
      n = 0 := by
  obtain ⟨hv, hn⟩ := Vfs.set_id_false_inv h
  subst hv
  exact ⟨rfl, rfl, rfl, hn⟩

/-- Witness for C9: deleting an already-deleted concrete file returns
`false` and leaves every component unchanged. -/
theorem c9_witness :
    ({ interner := [VfsPath.disk 0], data := [some none], changes := [],
       loader := fun _ => none } : Vfs).data =
      ({ interner := [VfsPath.disk 0], data := [some none], changes := [],
         loader := fun _ => none } : Vfs).data ∧
    ({ interner := [VfsPath.disk 0], data := [some none], changes := [],
       loader := fun _ => none } : Vfs).changes =
      ({ interner := [VfsPath.disk 0], data := [some none], changes := [],
         loader := fun _ => none } : Vfs).changes ∧
    ({ interner := [VfsPath.disk 0], data := [some none], changes := [],
       loader := fun _ => none } : Vfs).interner =
      ({ interner := [VfsPath.disk 0], data := [some none], changes := [],
         loader := fun _ => none } : Vfs).interner ∧
    (0 : Nat) = 0 :=
  c9_noop_frame
    (show Vfs.set_id_contents 2
        { interner := [VfsPath.disk 0], data := [some none], changes := [],
          loader := fun _ => none } 0 none =
      Res.ok (false,
        { interner := [VfsPath.disk 0], data := [some none], changes := [],
          loader := fun _ => none }, 0) from rfl)

/-- C5: the first `set_file_contents(path, Some b)` for a path not
previously seen allocates the handle equal to `len()` as it was immediately
before the call, stores the bytes, and appends exactly one change event — a
Create for that handle — returning `true`. -/
theorem c5_first_set_creates {v : Vfs} (fuel : Nat) (p : VfsPath) (b : Bytes)
    (hlen : v.interner.length = v.data.length)
    (hnew : Vfs.file_id v p = none) (hf : 2 ≤ fuel) :
    (Vfs.alloc_file_id v p).1 = v.len ∧
    Vfs.set_file_contents fuel v p (some b) =
      Res.ok (true, { v with
                        interner := v.interner ++ [p],
                        data := v.data ++ [some (some b)],
                        changes := v.changes ++ [⟨v.len, ChangeKind.Create⟩] },
        0) := by
  have halloc := Vfs.alloc_of_new hlen hnew
  constructor
  · rw [halloc]
    rfl
  · have hslot0 :
        ({ v with
             interner := v.interner ++ [p],
             data := v.data ++ [some none] } : Vfs).data.get? v.data.length =
          some (some none) :=
      List.get?_concat_length _ _
    have heq := Vfs.set_id_contents_resolved fuel (some b) hslot0 hf
    have hstep : Vfs.set_file_contents fuel v p (some b) =
        Vfs.set_id_contents fuel
          { v with
              interner := v.interner ++ [p],
              data := v.data ++ [some none] }
          v.data.length (some b) := by
      simp only [Vfs.set_file_contents, halloc]
    rw [hstep, heq]
    simp [specChangeKind, List.set_concat_length, Vfs.len]

/-- Witness for C5: the first create of a concrete fresh path gets handle 0
(the prior `len()`) and exactly one Create event. -/
theorem c5_witness :
    (Vfs.alloc_file_id (Vfs.new (fun _ => none)) (VfsPath.disk 3)).1 =
      (Vfs.new (fun _ => none)).len ∧
    Vfs.set_file_contents 2 (Vfs.new (fun _ => none)) (VfsPath.disk 3)
      (some [9]) =
      Res.ok (true, { interner := [VfsPath.disk 3], data := [some (some [9])],
                      changes := [⟨0, ChangeKind.Create⟩],
                      loader := fun _ => none }, 0) :=
  c5_first_set_creates (v := Vfs.new (fun _ => none)) 2 (VfsPath.disk 3) [9]
    rfl rfl (by omega)

/-- C10: `set_file_contents(path, None)` on a never-seen path still
allocates a handle — `len()` grows by one and the path becomes interned at
the old `len()` — even though the call returns `false` and appends no
change event. -/
theorem c10_delete_new_path_allocates {v : Vfs} (fuel : Nat) (p : VfsPath)
    (hlen : v.interner.length = v.data.length)
    (hnew : Vfs.file_id v p = none) (hf : 2 ≤ fuel) :
    Vfs.set_file_contents fuel v p none =
      Res.ok (false, { v with
                         interner := v.interner ++ [p],
                         data := v.data ++ [some none] }, 0) ∧
    Vfs.len { v with
                interner := v.interner ++ [p],
                data := v.data ++ [some none] } = v.len + 1 ∧
    Vfs.file_id { v with
                    interner := v.interner ++ [p],
                    data := v.data ++ [some none] } p = some v.len ∧
    Vfs.changes { v with
                    interner := v.interner ++ [p],
                    data := v.data ++ [some none] } = v.changes := by
  have halloc := Vfs.alloc_of_new hlen hnew
  have hslot0 :
      ({ v with
           interner := v.interner ++ [p],
           data := v.data ++ [some none] } : Vfs).data.get? v.data.length =
        some (some none) :=
    List.get?_concat_length _ _
  have heq := Vfs.set_id_contents_resolved fuel none hslot0 hf
  refine ⟨?_, ?_, ?_, rfl⟩
  · have hstep : Vfs.set_file_contents fuel v p none =
        Vfs.set_id_contents fuel
          { v with
              interner := v.interner ++ [p],
              data := v.data ++ [some none] }
          v.data.length none := by
      simp only [Vfs.set_file_contents, halloc]
    rw [hstep, heq]
    rfl
  · simp [Vfs.len]
  · show PathInterner.get (v.interner ++ [p]) p = some v.len
    rw [PathInterner.get_append_self hnew, hlen]
    rfl

/-- Witness for C10: deleting a concrete never-seen (virtual) path still
interns it at handle 0 with a one-slot store, returning `false` with an
empty change log. -/
theorem c10_witness :
    Vfs.set_file_contents 2 (Vfs.new (fun _ => none)) (VfsPath.mem 4) none =
      Res.ok (false, { interner := [VfsPath.mem 4], data := [some none],
                       changes := [], loader := fun _ => none }, 0) :=
  (c10_delete_new_path_allocates (v := Vfs.new (fun _ => none)) 2
    (VfsPath.mem 4) rfl rfl (by omega)).1

/-- C7: on a store with one slot per interned path, `file_contents` returns
the current bytes when the slot is Present without mutating anything, and
it panics exactly when the handle was never allocated (out of range), the
resolved state is Deleted, or the state is Unknown and the path is a
virtual (non-disk) identity. -/
theorem c7_file_contents_spec {v : Vfs} (fuel : Nat) (id : Nat)
    (hlen : v.interner.length = v.data.length) (hf : 1 ≤ fuel) :
    (∀ b, v.data.get? id = some (some (some b)) →
        Vfs.file_contents fuel v id = Res.ok (b, v, 0)) ∧
    (Vfs.file_contents fuel v id = Res.fatal ↔
      (v.data.length ≤ id ∨ v.data.get? id = some (some none) ∨
        (v.data.get? id = some none ∧
          ∃ q, PathInterner.lookup v.interner id = some (VfsPath.mem q)))) := by
  constructor
  · intro b hb
    unfold Vfs.file_contents
    rw [Vfs.get_or_load_resolved fuel hb hf]
  · constructor
    · intro hfat
      cases hs : v.data.get? id with
      | none => exact Or.inl (List.get?_eq_none.mp hs)
      | some e =>
        cases e with
        | some fc =>
          cases fc with
          | none => exact Or.inr (Or.inl rfl)
          | some b =>
            unfold Vfs.file_contents at hfat
            rw [Vfs.get_or_load_resolved fuel hs hf] at hfat
            simp at hfat
        | none =>
          have hlt : id < v.data.length := by
            by_contra hge
            rw [List.get?_len_le (by omega)] at hs
            cases hs
          have hlt2 : id < v.interner.length := by omega
          obtain ⟨vp, hvp⟩ :
              ∃ vp, PathInterner.lookup v.interner id = some vp :=
            ⟨_, List.get?_eq_get hlt2⟩
          cases vp with
          | mem q => exact Or.inr (Or.inr ⟨rfl, q, hvp⟩)
          | disk pth =>
            have hd := (Vfs.lazy_diverge fuel v id pth hs hvp).1
            unfold Vfs.file_contents at hfat
            rw [hd] at hfat
            cases hfat
    · intro hcase
      cases fuel with
      | zero => omega
      | succ f =>
        rcases hcase with hA | hB | ⟨hU, q, hQ⟩
        · have hs : v.data.get? id = none := List.get?_len_le hA
          have hg : Vfs.get_or_load (f + 1) v id = Res.fatal := by
            simp only [Vfs.get_or_load, hs]
          unfold Vfs.file_contents
          rw [hg]
        · have hg := Vfs.get_or_load_resolved (f + 1) hB (by omega)
          unfold Vfs.file_contents
          rw [hg]
        · have hg : Vfs.get_or_load (f + 1) v id = Res.fatal := by
            simp only [Vfs.get_or_load, hU, hQ, VfsPath.as_path]
          unfold Vfs.file_contents
          rw [hg]

/-- Witness for C7: reading a concrete Present slot yields its bytes with
the store unchanged and no load performed. -/
theorem c7_witness :
    Vfs.file_contents 1
      { interner := [VfsPath.disk 0], data := [some (some [5])],
        changes := [], loader := fun _ => none } 0 =
      Res.ok ([5],
        { interner := [VfsPath.disk 0], data := [some (some [5])],
          changes := [], loader := fun _ => none }, 0) :=
  (c7_file_contents_spec
    (v := { interner := [VfsPath.disk 0], data := [some (some [5])],
            changes := [], loader := fun _ => none })
    1 0 rfl (by omega)).1 [5] rfl

/-- C8: in every store reachable through the public operations from a fresh
store, every allocated slot is resolved (never Unknown); a freshly
allocated handle starts in the Deleted state; and the lazy-load branch of
`get_or_load` is never taken on such a store — every successful read
performs zero loader calls and leaves the store unchanged, and no read
diverges into the lazy-load recursion. -/
theorem c8_reachable_all_resolved (l : Nat → Option Bytes)
    (fuel fuel2 : Nat) (ops : List Op) (v1 : Vfs)
    (hrun : Vfs.runOps fuel (Vfs.new l) ops = .ok v1) (hf2 : 1 ≤ fuel2) :
    (∀ s ∈ v1.data, s ≠ none) ∧
    (∀ p, Vfs.file_id v1 p = none →
      (Vfs.alloc_file_id v1 p).2.data.get? (Vfs.alloc_file_id v1 p).1 =
        some (some none)) ∧
    (∀ id fc v2 n, Vfs.get_or_load fuel2 v1 id = .ok (fc, v2, n) →
      n = 0 ∧ v2 = v1) ∧
    (∀ id, Vfs.get_or_load fuel2 v1 id ≠ Res.diverge) := by
  have hWF := Vfs.WF_runOps ops (Vfs.new l) v1 (Vfs.WF_new l) hrun
  refine ⟨hWF.2, ?_, ?_, ?_⟩
  · intro p hnew
    rw [Vfs.alloc_of_new hWF.1 hnew]
    exact List.get?_concat_length _ _
  · intro id fc v2 n hg
    obtain ⟨_, rfl, rfl⟩ := Vfs.get_or_load_ok_inv hg
    exact ⟨rfl, rfl⟩
  · intro id hdiv
    cases hs : v1.data.get? id with
    | none =>
      cases fuel2 with
      | zero => omega
      | succ f =>
        have hg : Vfs.get_or_load (f + 1) v1 id = Res.fatal := by
          simp only [Vfs.get_or_load, hs]
        rw [hg] at hdiv
        cases hdiv
    | some e =>
      cases e with
      | none =>
        exact absurd rfl (hWF.2 none (List.get?_mem hs))
      | some fc =>
        rw [Vfs.get_or_load_resolved fuel2 hs hf2] at hdiv
        cases hdiv

/-- Witness for C8: on the concrete store reached by one create operation,
a read does not take the lazy-load branch. -/
theorem c8_witness :
    Vfs.get_or_load 1
      { interner := [VfsPath.disk 0], data := [some (some [1])],
        changes := [⟨0, ChangeKind.Create⟩], loader := fun _ => none } 0 ≠
      Res.diverge :=
  (c8_reachable_all_resolved (fun _ => none) 2 1
    [Op.setFile (VfsPath.disk 0) (some [1])]
    { interner := [VfsPath.disk 0], data := [some (some [1])],
      changes := [⟨0, ChangeKind.Create⟩], loader := fun _ => none }
    rfl (by omega)).2.2.2 0

/-- C6: after any completed finite sequence of `set_file_contents` calls on
a well-formed store, reading the handle of a path whose last targeting call
set bytes `b` returns exactly `b` (the set/read round-trip), with no
further mutation and no loader call. -/
theorem c6_round_trip {v v1 : Vfs} (fuel : Nat)
    (ops : List (VfsPath × FileContents)) (p : VfsPath) (b : Bytes)
    (id : Nat)
    (hWF : v.WF) (hf : 2 ≤ fuel) (hlast : lastSet p ops = some (some b))
    (hrun : Vfs.runSets fuel v ops = .ok v1)
    (hid : Vfs.file_id v1 p = some id) :
    Vfs.file_contents fuel v1 id = Res.ok (b, v1, 0) := by
  obtain ⟨id2, hid2, hslot⟩ :=
    Vfs.runSets_lastSet hf ops v v1 p (some b) hWF hlast hrun
  have heq : id = id2 := by
    rw [hid] at hid2
    exact Option.some.inj hid2
  subst heq
  unfold Vfs.file_contents
  rw [Vfs.get_or_load_resolved fuel hslot (by omega)]

/-- Witness for C6: a concrete create/create/modify run followed by a read
of the twice-set path returns the bytes of its last set. -/
theorem c6_witness :
    Vfs.file_contents 2
      { interner := [VfsPath.disk 1, VfsPath.disk 2],
        data := [some (some [2]), some (some [5])],
        changes := [⟨0, ChangeKind.Create⟩, ⟨1, ChangeKind.Create⟩,
                    ⟨0, ChangeKind.Modify⟩],
        loader := fun _ => none } 0 =
      Res.ok ([2],
        { interner := [VfsPath.disk 1, VfsPath.disk 2],
          data := [some (some [2]), some (some [5])],
          changes := [⟨0, ChangeKind.Create⟩, ⟨1, ChangeKind.Create⟩,
                      ⟨0, ChangeKind.Modify⟩],
          loader := fun _ => none }, 0) :=
  c6_round_trip (v := Vfs.new (fun _ => none)) 2
    [(VfsPath.disk 1, some [1]), (VfsPath.disk 2, some [5]),
     (VfsPath.disk 1, some [2])]
    (VfsPath.disk 1) [2] 0 (by decide) (by omega) rfl rfl rfl
